import Mathlib

/-!
Shallow embedding of the `succinct-rs` bit-vector core
(`src/bit_vector.rs` and `src/bit_vector/slice.rs`).

Modelling conventions:
- Rust `u64` values are `Nat` with arithmetic reduced `% 2^64` wherever the
  source operation can wrap (compiled, i.e. release, overflow semantics);
  `usize` is modelled as 64 bits wide.
- A Rust `assert!` failure or a failing `unwrap` is modelled by returning
  `none`; an operation that returns `none` produced no state, so no partial
  write is visible.
- The `BlockType` capability is external to the repository (consumed, not
  implemented, by this core); it is modelled as an abstract structure of the
  operations the source uses, with its documented contract as a separate
  `Prop`-valued structure.
-/

namespace Succinct

/-- `2^64`, the modulus of Rust `u64` arithmetic. -/
def U64 : Nat := 2 ^ 64

/-- The exclusive upper bound of `usize` values; `usize` is modelled as 64 bits. -/
def USIZE : Nat := 2 ^ 64

/-- The external `BlockType` capability consumed by the traits: a fixed-width
unsigned integer type with bit-width introspection and single-bit get/set
(value semantics). -/
structure BlockType (α : Type) where
  nbits : Nat
  get_bit : α → Nat → Bool
  set_bit : α → Nat → Bool → α

/-- The documented value-semantics contract of the external Block capability:
`set_bit` at an in-range offset makes `get_bit` at that offset return the
written value and leaves every other in-range offset unchanged. -/
structure BlockSpec {α : Type} (B : BlockType α) : Prop where
  get_set_same : ∀ b i v, i < B.nbits → B.get_bit (B.set_bit b i v) i = v
  get_set_other : ∀ b i j v, i < B.nbits → j < B.nbits → j ≠ i →
    B.get_bit (B.set_bit b i v) j = B.get_bit b j

/-- An implementer of the read-only `BitVector<Block>` trait: the two required
methods `block_len` and `get_block` over a carrier state `σ`. -/
structure BVImpl (α : Type) (σ : Type) where
  block_len : σ → Nat
  get_block : σ → Nat → α

/-- An implementer of `BitVectorMut<Block>`: adds the required `set_block`,
modelled as a state transformer. -/
structure BVMutImpl (α : Type) (σ : Type) extends BVImpl α σ where
  set_block : σ → Nat → α → σ

/-- Default `BitVector::bit_len`:
`self.block_len() as u64 * Block::nbits() as u64` (u64 multiplication,
hence the reduction `% U64`). -/
def bit_len {α σ : Type} (B : BlockType α) (I : BVImpl α σ) (s : σ) : Nat :=
  (I.block_len s * B.nbits) % U64

/-- Default `BitVector::get_bit`: asserts `position < bit_len()`, computes
`block_index = position / nbits` and `bit_offset = position % nbits` in u64,
converts `block_index` to `usize` (`to_usize().unwrap()`, modelled by the
`< USIZE` guard), and reads the bit out of `get_block(block_index)`.
`none` models a panic (failed assert or failed unwrap). -/
def get_bit {α σ : Type} (B : BlockType α) (I : BVImpl α σ) (s : σ)
    (position : Nat) : Option Bool :=
  if position < bit_len B I s then
    let block_bits := B.nbits
    let block_index := position / block_bits
    if block_index < USIZE then
      some (B.get_bit (I.get_block s block_index) (position % block_bits))
    else
      none
  else
    none

/-- Default `BitVectorMut::set_bit`: same assert and position arithmetic as
`get_bit`, then read-modify-write: `get_block`, the Block's value-returning
`set_bit`, `set_block`. `none` models a panic, in which case no state is
produced (no partial write). -/
def set_bit {α σ : Type} (B : BlockType α) (I : BVMutImpl α σ) (s : σ)
    (position : Nat) (value : Bool) : Option σ :=
  if position < bit_len B I.toBVImpl s then
    let block_bits := B.nbits
    let block_index := position / block_bits
    if block_index < USIZE then
      let old_block := I.get_block s block_index
      let new_block := B.set_bit old_block (position % block_bits) value
      some (I.set_block s block_index new_block)
    else
      none
  else
    none

/-- The `impl BitVector/BitVectorMut for [Block]` instance: `block_len` is the
element count, `get_block`/`set_block` are direct indexed access. Rust's
indexing panics out of bounds; the default methods only ever index in bounds
(when `bit_len` has not overflowed), so out-of-range access is modelled by the
`getD` default and a no-op `set`. -/
def listBlocks (α : Type) [Inhabited α] : BVMutImpl α (List α) where
  block_len s := s.length
  get_block s i := s.getD i default
  set_block s i b := s.set i b

/-- Default `Rank::rank0`: `position + 1 - self.rank(position)` in u64
(wrapping add then wrapping sub), over an abstract `rank`. -/
def rank0 (rank : Nat → Nat) (position : Nat) : Nat :=
  ((position + 1) % U64 + U64 - rank position % U64) % U64

/-- The `Bits` trait of `slice.rs` as seen by a slice's `Base` bound: the
methods the slice code calls on its base (`bit_len`, `get_bit`). `get_bit`
is `Option`-valued since the base's own implementation may panic. -/
structure Bits (σ : Type) where
  bit_len : σ → Nat
  get_bit : σ → Nat → Option Bool

/-- The `BitsMut` trait bound: adds the base's `set_bit`, a fallible state
transformer. -/
structure BitsMut (σ : Type) extends Bits σ where
  set_bit : σ → Nat → Bool → Option σ

/-- `BitSlice<'a, Base>`: a base value, a start bit offset, and a length in
bits (both `u64` in the source). -/
structure BitSlice (σ : Type) where
  data : σ
  start : Nat
  len : Nat

/-- `BitSliceMut<'a, Base>`: same fields, exclusive borrow of the base. -/
structure BitSliceMut (σ : Type) where
  data : σ
  start : Nat
  len : Nat

/-- `BitSlice::new(base, range)`: asserts `range.end < base.bit_len()`
(the source's strict `<`), then stores `start = range.start` and
`len = range.end - range.start`, a u64 subtraction that wraps when
`range.start > range.end`. -/
def BitSlice.new {σ : Type} (B : Bits σ) (base : σ)
    (range_start range_end : Nat) : Option (BitSlice σ) :=
  if range_end < B.bit_len base then
    some { data := base, start := range_start
           len := (U64 + range_end - range_start) % U64 }
  else
    none

/-- `Bits::bit_len` for `BitSlice`: returns the stored `len`. -/
def BitSlice.bit_len {σ : Type} (s : BitSlice σ) : Nat := s.len

/-- `Bits::get_bit` for `BitSlice`: asserts `position < self.len`, then
delegates to `self.data.get_bit(self.start + position)` (u64 addition). -/
def BitSlice.get_bit {σ : Type} (B : Bits σ) (s : BitSlice σ)
    (position : Nat) : Option Bool :=
  if position < s.len then
    B.get_bit s.data ((s.start + position) % U64)
  else
    none

/-- `BitSliceMut::new(base, range)`: identical check and fields as
`BitSlice::new`. -/
def BitSliceMut.new {σ : Type} (B : BitsMut σ) (base : σ)
    (range_start range_end : Nat) : Option (BitSliceMut σ) :=
  if range_end < B.bit_len base then
    some { data := base, start := range_start
           len := (U64 + range_end - range_start) % U64 }
  else
    none

/-- `Bits::bit_len` for `BitSliceMut`: returns the stored `len`. -/
def BitSliceMut.bit_len {σ : Type} (s : BitSliceMut σ) : Nat := s.len

/-- `Bits::get_bit` for `BitSliceMut`: same as for `BitSlice`. -/
def BitSliceMut.get_bit {σ : Type} (B : BitsMut σ) (s : BitSliceMut σ)
    (position : Nat) : Option Bool :=
  if position < s.len then
    B.get_bit s.data ((s.start + position) % U64)
  else
    none

/-- `BitsMut::set_bit` for `BitSliceMut`: asserts `position < self.len`, then
delegates to `self.data.set_bit(self.start + position, value)`; the updated
base is threaded back into the slice. -/
def BitSliceMut.set_bit {σ : Type} (B : BitsMut σ) (s : BitSliceMut σ)
    (position : Nat) (value : Bool) : Option (BitSliceMut σ) :=
  if position < s.len then
    (B.set_bit s.data ((s.start + position) % U64) value).map
      (fun d => { s with data := d })
  else
    none

/-- A concrete instance of the external Block capability used to instantiate
theorems: an 8-bit block represented by its bit function. Satisfies
`BlockSpec` definitionally. -/
def funBlock : BlockType (Nat → Bool) where
  nbits := 8
  get_bit b i := b i
  set_bit b i v := fun j => if j = i then v else b j

/-- A concrete instance of the external Block capability with `nbits = 32`:
a `u32` block modelled as a `Nat`, with the usual testBit / masked set. -/
def u32Block : BlockType Nat where
  nbits := 32
  get_bit b i := b.testBit i
  set_bit b i v := if v then b ||| (1 <<< i) else b &&& ((2 ^ 32 - 1) ^^^ (1 <<< i))

/-- A concrete 8-bit read-only base used to instantiate the slice theorems:
`bit_len` 8, all bits clear. -/
def u8ZeroBits : Bits Unit where
  bit_len _ := 8
  get_bit _ p := if p < 8 then some false else none

/-- A concrete mutable base used to instantiate the slice theorems: a list of
booleans, one bit per position. -/
def boolListBits : BitsMut (List Bool) where
  bit_len s := s.length
  get_bit s p := s.get? p
  set_bit s p v := if p < s.length then some (s.set p v) else none

/-- Two all-zero 8-bit function blocks. -/
def zeroBlocks : List (Nat → Bool) := [fun _ => false, fun _ => false]

/-- A concrete 8-bit mutable base used to instantiate the slice constructors:
`bit_len` 8, all bits clear, writes accepted in range. -/
def u8ZeroBitsMut : BitsMut Unit where
  bit_len _ := 8
  get_bit _ p := if p < 8 then some false else none
  set_bit u p _ := if p < 8 then some u else none

theorem length_set_eq {α : Type} (l : List α) (i : Nat) (a : α) :
    (l.set i a).length = l.length := by
  simp

theorem getD_set_self {α : Type} [Inhabited α] (l : List α) (i : Nat) (a : α)
    (h : i < l.length) : (l.set i a).getD i default = a := by
  induction l generalizing i with
  | nil => simp at h
  | cons x xs ih =>
    cases i with
    | zero => simp [List.set, List.getD]
    | succ n =>
      simp only [List.set, List.getD_cons_succ]
      exact ih n (by simpa using h)

theorem bit_len_lt_u64 {α σ : Type} (B : BlockType α) (I : BVImpl α σ) (s : σ) :
    bit_len B I s < U64 := by
  simp only [bit_len]
  exact Nat.mod_lt _ (by decide)

theorem div_nbits_lt_usize {α σ : Type} (B : BlockType α) (I : BVImpl α σ)
    (s : σ) (p : Nat) (hp : p < bit_len B I s) : p / B.nbits < USIZE := by
  have h1 : p < U64 := lt_trans hp (bit_len_lt_u64 B I s)
  exact lt_of_le_of_lt (Nat.div_le_self p B.nbits) h1

theorem get_bit_eq_of_lt {α σ : Type} (B : BlockType α) (I : BVImpl α σ)
    (s : σ) (p : Nat) (hp : p < bit_len B I s) (hu : p / B.nbits < USIZE) :
    get_bit B I s p =
      some (B.get_bit (I.get_block s (p / B.nbits)) (p % B.nbits)) := by
  simp only [get_bit]
  rw [if_pos hp, if_pos hu]

theorem set_bit_eq_of_lt {α σ : Type} (B : BlockType α) (I : BVMutImpl α σ)
    (s : σ) (p : Nat) (v : Bool) (hp : p < bit_len B I.toBVImpl s)
    (hu : p / B.nbits < USIZE) :
    set_bit B I s p v =
      some (I.set_block s (p / B.nbits)
        (B.set_bit (I.get_block s (p / B.nbits)) (p % B.nbits) v)) := by
  simp only [set_bit]
  rw [if_pos hp, if_pos hu]

/-- C2: over the `[Block]` implementation, for every valid position `p`
(with `block_len * nbits` in the u64 range) and value `v`, `set_bit p v`
succeeds and a following `get_bit p` returns `v`, while every other position
in the same block reads the same value as before — assuming the external
Block capability satisfies its value-semantics contract `BlockSpec`. -/
theorem set_then_get_bit (α : Type) [Inhabited α] (B : BlockType α)
    (hB : BlockSpec B) (s : List α) (p : Nat) (v : Bool)
    (hov : s.length * B.nbits < U64)
    (hp : p < bit_len B (listBlocks α).toBVImpl s) :
    ∃ s', set_bit B (listBlocks α) s p v = some s' ∧
      get_bit B (listBlocks α).toBVImpl s' p = some v ∧
      ∀ q, q < bit_len B (listBlocks α).toBVImpl s →
        q / B.nbits = p / B.nbits → q ≠ p →
        get_bit B (listBlocks α).toBVImpl s' q =
          get_bit B (listBlocks α).toBVImpl s q := by
  have hlen : bit_len B (listBlocks α).toBVImpl s = s.length * B.nbits :=
    Nat.mod_eq_of_lt hov
  have hp' : p < s.length * B.nbits := hlen ▸ hp
  have hn : 0 < B.nbits := by
    rcases Nat.eq_zero_or_pos B.nbits with h0 | h
    · rw [h0, Nat.mul_zero] at hp'; omega
    · exact h
  have hbi : p / B.nbits < s.length := (Nat.div_lt_iff_lt_mul hn).mpr hp'
  have hu : p / B.nbits < USIZE := div_nbits_lt_usize B (listBlocks α).toBVImpl s p hp
  have hlen2 : bit_len B (listBlocks α).toBVImpl
      (s.set (p / B.nbits)
        (B.set_bit (s.getD (p / B.nbits) default) (p % B.nbits) v)) =
      bit_len B (listBlocks α).toBVImpl s := by
    simp only [bit_len, listBlocks, List.length_set]
  refine ⟨s.set (p / B.nbits)
      (B.set_bit (s.getD (p / B.nbits) default) (p % B.nbits) v), ?_, ?_, ?_⟩
  · exact set_bit_eq_of_lt B (listBlocks α) s p v hp hu
  · rw [get_bit_eq_of_lt B (listBlocks α).toBVImpl _ p (by rw [hlen2]; exact hp) hu]
    rw [show (listBlocks α).toBVImpl.get_block
        (s.set (p / B.nbits)
          (B.set_bit (s.getD (p / B.nbits) default) (p % B.nbits) v))
        (p / B.nbits) =
        B.set_bit (s.getD (p / B.nbits) default) (p % B.nbits) v from
      getD_set_self s _ _ hbi]
    exact congrArg some (hB.get_set_same _ _ _ (Nat.mod_lt p hn))
  · intro q hq hdiv hne
    have huq : q / B.nbits < USIZE :=
      div_nbits_lt_usize B (listBlocks α).toBVImpl s q hq
    rw [get_bit_eq_of_lt B (listBlocks α).toBVImpl _ q (by rw [hlen2]; exact hq) huq,
      get_bit_eq_of_lt B (listBlocks α).toBVImpl s q hq huq]
    rw [hdiv]
    rw [show (listBlocks α).toBVImpl.get_block
        (s.set (p / B.nbits)
          (B.set_bit (s.getD (p / B.nbits) default) (p % B.nbits) v))
        (p / B.nbits) =
        B.set_bit (s.getD (p / B.nbits) default) (p % B.nbits) v from
      getD_set_self s _ _ hbi]
    have hoff : q % B.nbits ≠ p % B.nbits := by
      intro he
      apply hne
      have hq1 := Nat.div_add_mod q B.nbits
      have hp1 := Nat.div_add_mod p B.nbits
      rw [hdiv, he] at hq1
      exact hq1.symm.trans hp1
    exact congrArg some
      (hB.get_set_other _ _ _ _ (Nat.mod_lt p hn) (Nat.mod_lt q hn) hoff)

theorem funBlockSpec : BlockSpec funBlock :=
  ⟨fun b i v _ => by simp [funBlock],
   fun b i j v _ _ hne => by simp [funBlock, hne]⟩

theorem set_then_get_bit_witness :
    ∃ s', set_bit funBlock (listBlocks (Nat → Bool)) zeroBlocks 3 true = some s' ∧
      get_bit funBlock (listBlocks (Nat → Bool)).toBVImpl s' 3 = some true ∧
      ∀ q, q < bit_len funBlock (listBlocks (Nat → Bool)).toBVImpl zeroBlocks →
        q / funBlock.nbits = 3 / funBlock.nbits → q ≠ 3 →
        get_bit funBlock (listBlocks (Nat → Bool)).toBVImpl s' q =
          get_bit funBlock (listBlocks (Nat → Bool)).toBVImpl zeroBlocks q :=
  set_then_get_bit (Nat → Bool) funBlock funBlockSpec zeroBlocks 3 true
    (by decide) (by decide)

/-- C4: for every valid position `p` (`p < bit_len()`), the default `get_bit`
returns exactly the bit of `get_block(p / nbits)` at offset `p % nbits`, and
the default `set_bit` writes back, via `set_block`, exactly the block obtained
by the Block's value-returning bit-set at the same block index and offset. -/
theorem default_bit_access_translation (α σ : Type) (B : BlockType α)
    (I : BVMutImpl α σ) (s : σ) (p : Nat) (v : Bool)
    (hp : p < bit_len B I.toBVImpl s) :
    get_bit B I.toBVImpl s p =
      some (B.get_bit (I.get_block s (p / B.nbits)) (p % B.nbits)) ∧
    set_bit B I s p v =
      some (I.set_block s (p / B.nbits)
        (B.set_bit (I.get_block s (p / B.nbits)) (p % B.nbits) v)) :=
  ⟨get_bit_eq_of_lt B I.toBVImpl s p hp (div_nbits_lt_usize B I.toBVImpl s p hp),
   set_bit_eq_of_lt B I s p v hp (div_nbits_lt_usize B I.toBVImpl s p hp)⟩

theorem default_bit_access_translation_witness :
    get_bit funBlock (listBlocks (Nat → Bool)).toBVImpl zeroBlocks 11 =
      some (funBlock.get_bit
        ((listBlocks (Nat → Bool)).get_block zeroBlocks (11 / funBlock.nbits))
        (11 % funBlock.nbits)) ∧
    set_bit funBlock (listBlocks (Nat → Bool)) zeroBlocks 11 false =
      some ((listBlocks (Nat → Bool)).set_block zeroBlocks (11 / funBlock.nbits)
        (funBlock.set_bit
          ((listBlocks (Nat → Bool)).get_block zeroBlocks (11 / funBlock.nbits))
          (11 % funBlock.nbits) false)) :=
  default_bit_access_translation (Nat → Bool) (List (Nat → Bool)) funBlock
    (listBlocks (Nat → Bool)) zeroBlocks 11 false (by decide)

/-- C6: accessing `get_bit` or `set_bit` at a position at or beyond `bit_len()`
fails (the assert panics, modelled by `none`) on the default trait methods and
on both slice views; a failing `set_bit` produces no state, so nothing is
written. -/
theorem oob_bit_access_fails :
    (∀ (α σ : Type) (B : BlockType α) (I : BVImpl α σ) (s : σ) (p : Nat),
      bit_len B I s ≤ p → get_bit B I s p = none) ∧
    (∀ (α σ : Type) (B : BlockType α) (I : BVMutImpl α σ) (s : σ) (p : Nat)
      (v : Bool), bit_len B I.toBVImpl s ≤ p → set_bit B I s p v = none) ∧
    (∀ (σ : Type) (B : Bits σ) (sl : BitSlice σ) (p : Nat),
      BitSlice.bit_len sl ≤ p → BitSlice.get_bit B sl p = none) ∧
    (∀ (σ : Type) (B : BitsMut σ) (sl : BitSliceMut σ) (p : Nat),
      BitSliceMut.bit_len sl ≤ p → BitSliceMut.get_bit B sl p = none) ∧
    (∀ (σ : Type) (B : BitsMut σ) (sl : BitSliceMut σ) (p : Nat) (v : Bool),
      BitSliceMut.bit_len sl ≤ p → BitSliceMut.set_bit B sl p v = none) := by
  refine ⟨?_, ?_, ?_, ?_, ?_⟩
  · intro α σ B I s p h
    simp only [get_bit]
    rw [if_neg (by omega)]
  · intro α σ B I s p v h
    simp only [set_bit]
    rw [if_neg (by omega)]
  · intro σ B sl p h
    simp only [BitSlice.bit_len] at h
    simp only [BitSlice.get_bit]
    rw [if_neg (by omega)]
  · intro σ B sl p h
    simp only [BitSliceMut.bit_len] at h
    simp only [BitSliceMut.get_bit]
    rw [if_neg (by omega)]
  · intro σ B sl p v h
    simp only [BitSliceMut.bit_len] at h
    simp only [BitSliceMut.set_bit]
    rw [if_neg (by omega)]

theorem oob_bit_access_fails_witness :
    get_bit funBlock (listBlocks (Nat → Bool)).toBVImpl zeroBlocks 16 = none ∧
    set_bit funBlock (listBlocks (Nat → Bool)) zeroBlocks 20 true = none ∧
    BitSlice.get_bit u8ZeroBits { data := (), start := 1, len := 4 } 4 = none ∧
    BitSliceMut.get_bit boolListBits
      { data := [true, false], start := 0, len := 2 } 2 = none ∧
    BitSliceMut.set_bit boolListBits
      { data := [true, false], start := 0, len := 2 } 5 true = none :=
  ⟨oob_bit_access_fails.1 _ _ funBlock (listBlocks (Nat → Bool)).toBVImpl
      zeroBlocks 16 (by decide),
   oob_bit_access_fails.2.1 _ _ funBlock (listBlocks (Nat → Bool))
      zeroBlocks 20 true (by decide),
   oob_bit_access_fails.2.2.1 _ u8ZeroBits _ 4 (by decide),
   oob_bit_access_fails.2.2.2.1 _ boolListBits _ 2 (by decide),
   oob_bit_access_fails.2.2.2.2 _ boolListBits _ 5 true (by decide)⟩

/-- C3: for every type using the default `rank0` and every position `p` in the
u64 domain at which the abstract `rank` is conforming (`rank p ≤ p + 1`),
`rank0 p + rank p = p + 1`. -/
theorem rank0_plus_rank (rank : Nat → Nat) (p : Nat)
    (h1 : p + 1 < U64) (h2 : rank p ≤ p + 1) :
    rank0 rank p + rank p = p + 1 := by
  simp only [rank0, U64] at *
  omega

theorem rank0_plus_rank_witness :
    (3 : Nat) + 1 < U64 ∧ (fun _ : Nat => 2) 3 ≤ 3 + 1 ∧
      rank0 (fun _ => 2) 3 + (fun _ : Nat => 2) 3 = 3 + 1 :=
  ⟨by decide, by decide, rank0_plus_rank (fun _ => 2) 3 (by decide) (by decide)⟩

/-- C5: for every bit vector not overriding `bit_len`, whenever the product
does not exceed the u64 range, `bit_len() = block_len() * Block::nbits()`;
and the concrete scenario: a block sequence of four 32-bit zero blocks has
`bit_len() = 128` and `block_len() = 4`. -/
theorem bit_len_eq_block_len_mul_nbits :
    (∀ (α σ : Type) (B : BlockType α) (I : BVImpl α σ) (s : σ),
      I.block_len s * B.nbits < U64 →
        bit_len B I s = I.block_len s * B.nbits) ∧
    bit_len u32Block (listBlocks Nat).toBVImpl [0, 0, 0, 0] = 128 ∧
    (listBlocks Nat).block_len [0, 0, 0, 0] = 4 := by
  refine ⟨fun α σ B I s h => ?_, by decide, by decide⟩
  simp only [bit_len]
  exact Nat.mod_eq_of_lt h

theorem bit_len_eq_block_len_mul_nbits_witness :
    (listBlocks Nat).block_len [0, 0, 0, 0] * u32Block.nbits < U64 ∧
    bit_len u32Block (listBlocks Nat).toBVImpl [0, 0, 0, 0] =
      (listBlocks Nat).block_len [0, 0, 0, 0] * u32Block.nbits :=
  ⟨by decide,
   bit_len_eq_block_len_mul_nbits.1 Nat (List Nat) u32Block
     (listBlocks Nat).toBVImpl [0, 0, 0, 0] (by decide)⟩

/-- C7: a successfully constructed slice over `[a, b)` has `bit_len() = b - a`
(independent of the base's length), and its `get_bit(i)` delegates to
`base.get_bit(a + i)` for every `i < b - a`. -/
theorem slice_view_semantics (σ : Type) (B : Bits σ) (base : σ)
    (a b : Nat) (sl : BitSlice σ) (ha : a ≤ b) (hb : b < U64)
    (h : BitSlice.new B base a b = some sl) :
    BitSlice.bit_len sl = b - a ∧
    ∀ i, i < b - a → BitSlice.get_bit B sl i = B.get_bit base (a + i) := by
  simp only [BitSlice.new] at h
  split at h
  · injection h with h2
    subst h2
    have hlen : (U64 + b - a) % U64 = b - a := by
      simp only [U64] at *
      omega
    constructor
    · simp only [BitSlice.bit_len, hlen]
    · intro i hi
      simp only [BitSlice.get_bit, hlen]
      rw [if_pos hi, Nat.mod_eq_of_lt (by omega)]
  · exact absurd h (by simp)

theorem slice_view_semantics_witness :
    BitSlice.bit_len { data := (), start := 2, len := 4 } = 6 - 2 ∧
    ∀ i, i < 6 - 2 →
      BitSlice.get_bit u8ZeroBits { data := (), start := 2, len := 4 } i =
        u8ZeroBits.get_bit () (2 + i) :=
  slice_view_semantics Unit u8ZeroBits () 2 6
    { data := (), start := 2, len := 4 } (by decide) (by decide) (by rfl)

/-- C8: for a mutable slice, a local position below `bit_len()` makes
`set_bit` delegate exactly to the base's `set_bit` at `start + position`,
while a local position at or beyond `bit_len()` fails the bounds assert. -/
theorem slice_mut_set_bit_delegation (σ : Type) (B : BitsMut σ)
    (sl : BitSliceMut σ) (p : Nat) (v : Bool) (hw : sl.start + p < U64) :
    (p < BitSliceMut.bit_len sl →
      BitSliceMut.set_bit B sl p v =
        Option.map (fun d => { sl with data := d })
          (B.set_bit sl.data (sl.start + p) v)) ∧
    (BitSliceMut.bit_len sl ≤ p → BitSliceMut.set_bit B sl p v = none) := by
  constructor
  · intro hp
    simp only [BitSliceMut.bit_len] at hp
    simp only [BitSliceMut.set_bit]
    rw [if_pos hp, Nat.mod_eq_of_lt hw]
  · intro hp
    simp only [BitSliceMut.bit_len] at hp
    simp only [BitSliceMut.set_bit]
    rw [if_neg (by omega)]

theorem slice_mut_set_bit_delegation_witness :
    ((1 : Nat) <
        BitSliceMut.bit_len
          (σ := List Bool) { data := [false, false, false], start := 1, len := 2 } →
      BitSliceMut.set_bit boolListBits
          { data := [false, false, false], start := 1, len := 2 } 1 true =
        Option.map
          (fun d => ({ data := d, start := 1, len := 2 } : BitSliceMut (List Bool)))
          (boolListBits.set_bit [false, false, false] (1 + 1) true)) ∧
    (BitSliceMut.bit_len
        (σ := List Bool) { data := [false, false, false], start := 1, len := 2 } ≤ 1 →
      BitSliceMut.set_bit boolListBits
          { data := [false, false, false], start := 1, len := 2 } 1 true = none) :=
  slice_mut_set_bit_delegation (List Bool) boolListBits
    { data := [false, false, false], start := 1, len := 2 } 1 true (by decide)

/-- C9: the default methods' position arithmetic stays in the u64 domain:
for every position below `bit_len()` the conversion of `block_index` to a
64-bit `usize` succeeds (the `unwrap` never fails), and both default methods
return a value instead of panicking. -/
theorem position_arithmetic_u64 (α σ : Type) (B : BlockType α)
    (I : BVMutImpl α σ) (s : σ) (p : Nat) (v : Bool)
    (hp : p < bit_len B I.toBVImpl s) :
    p / B.nbits < USIZE ∧
    (∃ b, get_bit B I.toBVImpl s p = some b) ∧
    (∃ t, set_bit B I s p v = some t) := by
  have hu := div_nbits_lt_usize B I.toBVImpl s p hp
  exact ⟨hu, ⟨_, get_bit_eq_of_lt B I.toBVImpl s p hp hu⟩,
    ⟨_, set_bit_eq_of_lt B I s p v hp hu⟩⟩

theorem position_arithmetic_u64_witness :
    15 / funBlock.nbits < USIZE ∧
    (∃ b, get_bit funBlock (listBlocks (Nat → Bool)).toBVImpl zeroBlocks 15 =
      some b) ∧
    (∃ t, set_bit funBlock (listBlocks (Nat → Bool)) zeroBlocks 15 true =
      some t) :=
  position_arithmetic_u64 (Nat → Bool) (List (Nat → Bool)) funBlock
    (listBlocks (Nat → Bool)) zeroBlocks 15 true (by decide)

/-- C1 (failing input): a base of bit length 8 and the range `[0, 8)` — whose
end equals `bit_len()`, so the claim requires construction to succeed — are
rejected by both constructors, because the source asserts the strict
`range.end < base.bit_len()`. -/
theorem slice_new_rejects_exact_end :
    (8 : Nat) ≤ u8ZeroBits.bit_len () ∧
    BitSlice.new u8ZeroBits () 0 8 = none ∧
    (8 : Nat) ≤ u8ZeroBitsMut.bit_len () ∧
    BitSliceMut.new u8ZeroBitsMut () 0 8 = none :=
  ⟨by decide, by rfl, by decide, by rfl⟩

/-- C10: slice construction does not validate `start ≤ end`: with a base of
bit length 8 and the reversed range `[5, 2)`, the bounds assertion passes
(`2 < 8`), the u64 subtraction `range.end - range.start` wraps, and both
constructors return a slice whose `bit_len()` is `2^64 - 3`, vastly exceeding
the base's length, instead of failing with an out-of-bounds condition. -/
theorem slice_new_start_gt_end_underflow :
    BitSlice.new u8ZeroBits () 5 2 =
      some { data := (), start := 5, len := U64 - 3 } ∧
    BitSlice.bit_len (σ := Unit) { data := (), start := 5, len := U64 - 3 } =
      2 ^ 64 - 3 ∧
    BitSliceMut.new u8ZeroBitsMut () 5 2 =
      some { data := (), start := 5, len := U64 - 3 } ∧
    (2 : Nat) < u8ZeroBits.bit_len () ∧ (5 : Nat) > 2 ∧
    u8ZeroBits.bit_len () <
      BitSlice.bit_len (σ := Unit) { data := (), start := 5, len := U64 - 3 } :=
  ⟨by rfl, by rfl, by rfl, by decide, by decide, by decide⟩

end Succinct
